import Mathlib

/-!
Verification of the tag module of `tracing-forest`
(`src/tracing-forest/src/tag.rs`), shallowly embedded in Lean.

Naming note: Rust's field `prefix` is a Lean keyword, so it is embedded
here as `pfx`, and `set_prefix` as `set_pfx`; all other names follow the
source (`suffix`, `icon`, `set_suffix`, `set_icon`, `set_level`,
`finish`, `builder`).
-/

namespace TracingForest

/-- Severity levels of the host tracing facility (`tracing::Level`):
a fixed five-valued enumeration. -/
inductive Level where
  | TRACE
  | DEBUG
  | INFO
  | WARN
  | ERROR
deriving DecidableEq

/-- Embeds `struct Tag` (tag.rs lines 84-97): an immutable value with an
optional `prefix` (here `pfx`), a required `suffix` and a required `icon`.
The Rust accessors `prefix()`, `suffix()`, `icon()` are the projections. -/
structure Tag where
  pfx : Option String
  suffix : String
  icon : Char
deriving DecidableEq

/-- Embeds `struct Empty(())` (tag.rs line 139): marks an unset builder field. -/
structure Empty where
  val : Unit
deriving DecidableEq

/-- Embeds `struct Suffix(&'static str)` (tag.rs line 143): a set suffix. -/
structure Suffix where
  val : String
deriving DecidableEq

/-- Embeds `struct Icon(char)` (tag.rs line 147): a set icon. -/
structure Icon where
  val : Char
deriving DecidableEq

/-- Embeds `struct Builder<S, I>` (tag.rs lines 130-135). In the source it
derives `Copy, Clone`, so builder values are freely duplicable. -/
structure Builder (S I : Type) where
  pfx : Option String
  suffix : S
  icon : I

/-- Embeds `Tag::builder` (tag.rs lines 101-107): the fully unset shape. -/
def Tag.builder : Builder Empty Empty :=
  { pfx := none, suffix := ⟨()⟩, icon := ⟨()⟩ }

/-- Embeds `Builder::set_prefix` (tag.rs lines 151-156): overwrites the
prefix field, keeping the suffix and icon (and their type states). -/
def Builder.set_pfx {S I : Type} (b : Builder S I) (p : String) : Builder S I :=
  { b with pfx := some p }

/-- Embeds `Builder::set_suffix` (tag.rs lines 159-165). -/
def Builder.set_suffix {S I : Type} (b : Builder S I) (s : String) : Builder Suffix I :=
  { pfx := b.pfx, suffix := ⟨s⟩, icon := b.icon }

/-- Embeds `Builder::set_icon` (tag.rs lines 168-174). -/
def Builder.set_icon {S I : Type} (b : Builder S I) (c : Char) : Builder S Icon :=
  { pfx := b.pfx, suffix := b.suffix, icon := ⟨c⟩ }

/-- The severity-to-(suffix, icon) table: the `match level` inside
`Builder::set_level` (tag.rs lines 181-187), hoisted into a function. -/
def levelEntry : Level → String × Char
  | Level.TRACE => ("trace", '📍')
  | Level.DEBUG => ("debug", '🐛')
  | Level.INFO => ("info", 'ｉ')
  | Level.WARN => ("warn", '🚧')
  | Level.ERROR => ("error", '🚨')

/-- Embeds `Builder::set_level` (tag.rs lines 180-194): sets both the
suffix and the icon from the fixed table, keeping the prefix. -/
def Builder.set_level {S I : Type} (b : Builder S I) (level : Level) : Builder Suffix Icon :=
  { pfx := b.pfx, suffix := ⟨(levelEntry level).1⟩, icon := ⟨(levelEntry level).2⟩ }

/-- Embeds `Builder<Suffix, Icon>::finish` (tag.rs lines 197-208): only
defined on the shape where both the suffix and the icon are set. -/
def Builder.finish (b : Builder Suffix Icon) : Tag :=
  { pfx := b.pfx, suffix := b.suffix.val, icon := b.icon.val }

/-- Embeds `impl fmt::Display for Tag` (tag.rs lines 210-218). -/
def Tag.display (t : Tag) : String :=
  match t.pfx with
  | some p => p ++ "." ++ t.suffix
  | none => t.suffix

/-- Embeds `impl From<Level> for Tag` (tag.rs lines 220-224). -/
def Tag.fromLevel (level : Level) : Tag :=
  (Tag.builder.set_level level).finish

/-- The value space a serde serializer is offered by `Tag::serialize`:
the implementation only ever calls `serialize_str`. -/
inductive SerValue where
  | str : String → SerValue
deriving DecidableEq

/-- Embeds `impl Serialize for Tag` (tag.rs lines 229-234, under
`cfg_serde`): serializes the rendered display string. -/
def Tag.serialize (t : Tag) : SerValue :=
  SerValue.str t.display

/-- An incoming tracing event, at the granularity this module observes:
a target string and a severity level (tag.rs line 79, `tracing::Event`). -/
structure Event where
  target : String
  level : Level

/-- Embeds `struct NoTag` (tag.rs line 250). -/
structure NoTag where
deriving DecidableEq

/-- Embeds `impl TagParser for NoTag` (tag.rs lines 252-256): always `None`. -/
def NoTag.parse (_self : NoTag) (_event : Event) : Option Tag :=
  none

/-! ## Call-sequence model of the builder protocol

A `Step` is one builder call; `runSteps` replays a sequence on the typed
builder, tracking at which type the builder currently sits (the pair of
Booleans mirrors the type-level pair `(S, I)`, `true` meaning set). -/

/-- One builder call. -/
inductive Step where
  | setPfx : String → Step
  | setSuffix : String → Step
  | setIcon : Char → Step
  | setLevel : Level → Step

/-- The builder type at a given shape: suffix position. -/
def SuffixTy : Bool → Type
  | false => Empty
  | true => Suffix

/-- The builder type at a given shape: icon position. -/
def IconTy : Bool → Type
  | false => Empty
  | true => Icon

/-- A builder together with its current type-level shape. -/
def BState : Type :=
  (sh : Bool × Bool) × Builder (SuffixTy sh.1) (IconTy sh.2)

/-- The state produced by `Tag::builder()`. -/
def initState : BState :=
  ⟨(false, false), Tag.builder⟩

/-- Run one builder call; each branch is the corresponding source method,
and the shape moves exactly as the source's types move. -/
def applyStep : BState → Step → BState
  | ⟨sh, b⟩, Step.setPfx p => ⟨sh, b.set_pfx p⟩
  | ⟨(_, i), b⟩, Step.setSuffix s => ⟨(true, i), b.set_suffix s⟩
  | ⟨(s, _), b⟩, Step.setIcon c => ⟨(s, true), b.set_icon c⟩
  | ⟨_, b⟩, Step.setLevel l => ⟨(true, true), b.set_level l⟩

/-- Replay a call sequence. -/
def runSteps : List Step → BState → BState
  | [], st => st
  | s :: rest, st => runSteps rest (applyStep st s)

/-- Attempt to call `finish`: in the source, `finish` exists only on
`Builder<Suffix, Icon>`, i.e. only at shape `(true, true)`; `none` models
that the call does not exist (does not compile) at the other shapes. -/
def tryFinish : BState → Option Tag
  | ⟨(true, true), b⟩ => some b.finish
  | ⟨(false, _), _⟩ => none
  | ⟨(true, false), _⟩ => none

/-- The prefix field of the builder in a state. -/
def statePfx : BState → Option String
  | ⟨_, b⟩ => b.pfx

/-- The suffix value held by the builder, when its shape says it is set. -/
def stateSuffix : BState → Option String
  | ⟨(true, _), b⟩ => some b.suffix.val
  | ⟨(false, _), _⟩ => none

/-- The icon value held by the builder, when its shape says it is set. -/
def stateIcon : BState → Option Char
  | ⟨(_, true), b⟩ => some b.icon.val
  | ⟨(_, false), _⟩ => none

/-- Does a step set the suffix (directly or via `set_level`)? -/
def stepSetsSuffix : Step → Bool
  | Step.setSuffix _ => true
  | Step.setLevel _ => true
  | _ => false

/-- Does a step set the icon (directly or via `set_level`)? -/
def stepSetsIcon : Step → Bool
  | Step.setIcon _ => true
  | Step.setLevel _ => true
  | _ => false

/-- Last-write tracking for the prefix. -/
def pfxWrite : Option String → Step → Option String
  | _, Step.setPfx p => some p
  | acc, _ => acc

/-- Last-write tracking for the suffix. -/
def suffixWrite : Option String → Step → Option String
  | _, Step.setSuffix s => some s
  | _, Step.setLevel l => some (levelEntry l).1
  | acc, _ => acc

/-- Last-write tracking for the icon. -/
def iconWrite : Option Char → Step → Option Char
  | _, Step.setIcon c => some c
  | _, Step.setLevel l => some (levelEntry l).2
  | acc, _ => acc

/-- The last prefix written by a sequence, if any. -/
def lastPfx (steps : List Step) : Option String :=
  steps.foldl pfxWrite none

/-- The last suffix written by a sequence, if any. -/
def lastSuffix (steps : List Step) : Option String :=
  steps.foldl suffixWrite none

/-- The last icon written by a sequence, if any. -/
def lastIcon (steps : List Step) : Option Char :=
  steps.foldl iconWrite none

/-! ## Helper lemmas about the call-sequence model -/

theorem runSteps_append (xs ys : List Step) (st : BState) :
    runSteps (xs ++ ys) st = runSteps ys (runSteps xs st) := by
  induction xs generalizing st with
  | nil => rfl
  | cons s rest ih => simpa [runSteps] using ih (applyStep st s)

theorem statePfx_applyStep (st : BState) (s : Step) :
    statePfx (applyStep st s) = pfxWrite (statePfx st) s := by
  rcases st with ⟨⟨bs, bi⟩, b⟩
  cases s <;> cases bs <;> cases bi <;> rfl

theorem stateSuffix_applyStep (st : BState) (s : Step) :
    stateSuffix (applyStep st s) = suffixWrite (stateSuffix st) s := by
  rcases st with ⟨⟨bs, bi⟩, b⟩
  cases s <;> cases bs <;> cases bi <;> rfl

theorem stateIcon_applyStep (st : BState) (s : Step) :
    stateIcon (applyStep st s) = iconWrite (stateIcon st) s := by
  rcases st with ⟨⟨bs, bi⟩, b⟩
  cases s <;> cases bs <;> cases bi <;> rfl

theorem statePfx_runSteps (steps : List Step) (st : BState) :
    statePfx (runSteps steps st) = steps.foldl pfxWrite (statePfx st) := by
  induction steps generalizing st with
  | nil => rfl
  | cons s rest ih =>
    rw [runSteps, ih, statePfx_applyStep]
    rfl

theorem stateSuffix_runSteps (steps : List Step) (st : BState) :
    stateSuffix (runSteps steps st) = steps.foldl suffixWrite (stateSuffix st) := by
  induction steps generalizing st with
  | nil => rfl
  | cons s rest ih =>
    rw [runSteps, ih, stateSuffix_applyStep]
    rfl

theorem stateIcon_runSteps (steps : List Step) (st : BState) :
    stateIcon (runSteps steps st) = steps.foldl iconWrite (stateIcon st) := by
  induction steps generalizing st with
  | nil => rfl
  | cons s rest ih =>
    rw [runSteps, ih, stateIcon_applyStep]
    rfl

theorem shape1_applyStep (st : BState) (s : Step) :
    (applyStep st s).fst.1 = (st.fst.1 || stepSetsSuffix s) := by
  rcases st with ⟨⟨bs, bi⟩, b⟩
  cases s <;> cases bs <;> cases bi <;> rfl

theorem shape2_applyStep (st : BState) (s : Step) :
    (applyStep st s).fst.2 = (st.fst.2 || stepSetsIcon s) := by
  rcases st with ⟨⟨bs, bi⟩, b⟩
  cases s <;> cases bs <;> cases bi <;> rfl

theorem shape1_runSteps (steps : List Step) (st : BState) :
    (runSteps steps st).fst.1 = (st.fst.1 || steps.any stepSetsSuffix) := by
  induction steps generalizing st with
  | nil => simp [runSteps]
  | cons s rest ih =>
    rw [runSteps, ih, shape1_applyStep, List.any_cons, Bool.or_assoc]

theorem shape2_runSteps (steps : List Step) (st : BState) :
    (runSteps steps st).fst.2 = (st.fst.2 || steps.any stepSetsIcon) := by
  induction steps generalizing st with
  | nil => simp [runSteps]
  | cons s rest ih =>
    rw [runSteps, ih, shape2_applyStep, List.any_cons, Bool.or_assoc]

theorem tryFinish_isSome_iff (st : BState) :
    (tryFinish st).isSome = true ↔ st.fst = (true, true) := by
  rcases st with ⟨⟨bs, bi⟩, b⟩
  cases bs <;> cases bi <;> simp [tryFinish]

theorem tryFinish_fields :
    ∀ (st : BState) (t : Tag), tryFinish st = some t →
      stateSuffix st = some t.suffix ∧ stateIcon st = some t.icon ∧
      statePfx st = t.pfx
  | ⟨(true, true), b⟩, t, h => by
    have ht : b.finish = t := Option.some.inj h
    subst ht
    exact ⟨rfl, rfl, rfl⟩
  | ⟨(false, bi), b⟩, t, h => by simp [tryFinish] at h
  | ⟨(true, false), b⟩, t, h => by simp [tryFinish] at h

theorem foldl_pfxWrite_isSome (steps : List Step) (acc : Option String)
    (h : acc.isSome = true) : (steps.foldl pfxWrite acc).isSome = true := by
  induction steps generalizing acc with
  | nil => exact h
  | cons s rest ih =>
    cases s with
    | setPfx p => exact ih (some p) rfl
    | setSuffix v => exact ih acc h
    | setIcon c => exact ih acc h
    | setLevel l => exact ih acc h

/-! ## Claim theorems -/

/-- C1: over every call sequence starting from `Tag::builder()`, `finish`
is reachable (exists at the builder's type, modelled by `tryFinish`)
exactly when the sequence contains a suffix-setting step and an
icon-setting step (`set_level` providing both); in particular no sequence
of `set_prefix` calls alone reaches `finish`. -/
theorem finish_reachable_iff (steps : List Step) :
    ((tryFinish (runSteps steps initState)).isSome = true ↔
      steps.any stepSetsSuffix = true ∧ steps.any stepSetsIcon = true) ∧
    ∀ ps : List String, tryFinish (runSteps (ps.map Step.setPfx) initState) = none := by
  have key : ∀ l : List Step, (tryFinish (runSteps l initState)).isSome = true ↔
      l.any stepSetsSuffix = true ∧ l.any stepSetsIcon = true := by
    intro l
    rw [tryFinish_isSome_iff]
    have h1 : (runSteps l initState).fst.1 = l.any stepSetsSuffix :=
      (shape1_runSteps l initState).trans (Bool.false_or _)
    have h2 : (runSteps l initState).fst.2 = l.any stepSetsIcon :=
      (shape2_runSteps l initState).trans (Bool.false_or _)
    constructor
    · intro h
      refine ⟨?_, ?_⟩
      · rw [← h1, h]
      · rw [← h2, h]
    · rintro ⟨hs, hi⟩
      have e1 : (runSteps l initState).fst.1 = true := h1.trans hs
      have e2 : (runSteps l initState).fst.2 = true := h2.trans hi
      exact Prod.ext e1 e2
  refine ⟨key steps, ?_⟩
  intro ps
  have hnone : (ps.map Step.setPfx).any stepSetsSuffix = false := by
    induction ps with
    | nil => rfl
    | cons p rest ih => simp [stepSetsSuffix, ih]
  cases hopt : tryFinish (runSteps (ps.map Step.setPfx) initState) with
  | none => rfl
  | some t =>
    have := ((key (ps.map Step.setPfx)).mp (by rw [hopt]; rfl)).1
    rw [hnone] at this
    cases this

theorem finish_reachable_iff_witness :
    (tryFinish (runSteps [Step.setSuffix "a", Step.setIcon 'x'] initState)).isSome = true :=
  (finish_reachable_iff [Step.setSuffix "a", Step.setIcon 'x']).1.mpr (by decide)

/-- C2: `Tag::from(level)` equals `Tag::builder().set_level(level).finish()`
for every level, and both equal the fixed table entry, with the literal
strings and glyphs reproduced verbatim. -/
theorem from_level_table :
    (∀ l : Level, Tag.fromLevel l = (Tag.builder.set_level l).finish) ∧
    Tag.fromLevel Level.TRACE = ⟨none, "trace", '📍'⟩ ∧
    Tag.fromLevel Level.DEBUG = ⟨none, "debug", '🐛'⟩ ∧
    Tag.fromLevel Level.INFO = ⟨none, "info", 'ｉ'⟩ ∧
    Tag.fromLevel Level.WARN = ⟨none, "warn", '🚧'⟩ ∧
    Tag.fromLevel Level.ERROR = ⟨none, "error", '🚨'⟩ :=
  ⟨fun _ => rfl, rfl, rfl, rfl, rfl, rfl⟩

/-- C3: any call sequence that sets the suffix and the icon (in any order,
with `set_prefix` calls freely interleaved and repeats allowed) reaches
`finish`, and each field of the finished `Tag` is the last value written
to it. -/
theorem finish_last_write (steps : List Step)
    (hs : steps.any stepSetsSuffix = true) (hi : steps.any stepSetsIcon = true) :
    ∃ t : Tag, tryFinish (runSteps steps initState) = some t ∧
      some t.suffix = lastSuffix steps ∧ some t.icon = lastIcon steps ∧
      t.pfx = lastPfx steps := by
  have hshape : (runSteps steps initState).fst = (true, true) := by
    have h1 : (runSteps steps initState).fst.1 = steps.any stepSetsSuffix :=
      (shape1_runSteps steps initState).trans (Bool.false_or _)
    have h2 : (runSteps steps initState).fst.2 = steps.any stepSetsIcon :=
      (shape2_runSteps steps initState).trans (Bool.false_or _)
    exact Prod.ext (h1.trans hs) (h2.trans hi)
  obtain ⟨t, ht⟩ := Option.isSome_iff_exists.mp
    ((tryFinish_isSome_iff (runSteps steps initState)).mpr hshape)
  obtain ⟨hsfx, hic, hpfx⟩ := tryFinish_fields (runSteps steps initState) t ht
  rw [stateSuffix_runSteps] at hsfx
  rw [stateIcon_runSteps] at hic
  rw [statePfx_runSteps] at hpfx
  exact ⟨t, ht, hsfx.symm, hic.symm, hpfx.symm⟩

theorem finish_last_write_witness :
    ∃ t : Tag,
      tryFinish (runSteps [Step.setSuffix "a", Step.setSuffix "b", Step.setIcon 'x']
        initState) = some t ∧
      some t.suffix = lastSuffix [Step.setSuffix "a", Step.setSuffix "b", Step.setIcon 'x'] ∧
      some t.icon = lastIcon [Step.setSuffix "a", Step.setSuffix "b", Step.setIcon 'x'] ∧
      t.pfx = lastPfx [Step.setSuffix "a", Step.setSuffix "b", Step.setIcon 'x'] :=
  finish_last_write [Step.setSuffix "a", Step.setSuffix "b", Step.setIcon 'x']
    (by decide) (by decide)

/-- C4: a `Tag`'s rendering is `"<prefix>.<suffix>"` when a prefix is
present, and the suffix alone when it is absent. -/
theorem display_renders (t : Tag) :
    (∀ p : String, t.pfx = some p → Tag.display t = p ++ "." ++ t.suffix) ∧
    (t.pfx = none → Tag.display t = t.suffix) := by
  rcases t with ⟨op, sfx, ic⟩
  rcases op with _ | q
  · refine ⟨?_, ?_⟩
    · intro p hp
      exact absurd hp (by simp)
    · intro _
      rfl
  · refine ⟨?_, ?_⟩
    · intro p hp
      have hq : q = p := by simpa using hp
      subst hq
      rfl
    · intro h
      exact absurd h (by simp)

theorem display_renders_witness :
    Tag.display ⟨some "admin", "info", 'ｉ'⟩ = "admin.info" ∧
    Tag.display ⟨none, "info", 'ｉ'⟩ = "info" :=
  ⟨(display_renders ⟨some "admin", "info", 'ｉ'⟩).1 "admin" rfl,
   (display_renders ⟨none, "info", 'ｉ'⟩).2 rfl⟩

/-- C5: `set_prefix` changes only the prefix (the suffix and icon fields,
and their type states `S`, `I`, are carried unchanged), and `set_suffix`
changes only the suffix (icon state `I` and prefix carried unchanged);
both are defined at every shape, witnessed by the generic `S`, `I`. -/
theorem set_pfx_suffix_frame {S I : Type} (b : Builder S I) (p s : String) :
    (b.set_pfx p).suffix = b.suffix ∧
    (b.set_pfx p).icon = b.icon ∧
    (b.set_pfx p).pfx = some p ∧
    (b.set_suffix s).icon = b.icon ∧
    (b.set_suffix s).pfx = b.pfx ∧
    (b.set_suffix s).suffix = Suffix.mk s :=
  ⟨rfl, rfl, rfl, rfl, rfl, rfl⟩

/-- C6 counterexample: the builder is not single-use. `Builder` derives
`Copy, Clone` (tag.rs line 130), so the same builder value
`Tag::builder().set_icon('x')` can be fed to two different `set_suffix`
calls, both of which succeed and finish into distinct tags; a mutating
step does not invalidate the handle it was called on. -/
theorem builder_single_use_cex :
    ((Tag.builder.set_icon 'x').set_suffix "a").finish.suffix = "a" ∧
    ((Tag.builder.set_icon 'x').set_suffix "b").finish.suffix = "b" ∧
    ((Tag.builder.set_icon 'x').set_suffix "a").finish ≠
      ((Tag.builder.set_icon 'x').set_suffix "b").finish :=
  ⟨rfl, rfl, by decide⟩

/-- C6 amended: each mutating step is a pure function returning a new
builder and leaving its argument intact, and because `Builder` is `Copy`
the same builder value may be reused by several steps, each copy evolving
independently. -/
theorem builder_reusable {S I : Type} (b : Builder S I) (s1 s2 : String) (c : Char) :
    ((b.set_suffix s1).set_icon c).finish.suffix = s1 ∧
    ((b.set_suffix s2).set_icon c).finish.suffix = s2 ∧
    ((b.set_suffix s1).set_icon c).finish.pfx = b.pfx ∧
    b.set_suffix s1 = { pfx := b.pfx, suffix := Suffix.mk s1, icon := b.icon } :=
  ⟨rfl, rfl, rfl, rfl⟩

/-- C7: the no-op classifier `NoTag` returns no tag on every event,
whatever its target and level. -/
theorem no_tag_parse_none (nt : NoTag) (e : Event) : NoTag.parse nt e = none :=
  rfl

/-- C8: under the serde feature, a `Tag` serializes exactly as its
rendered display string, so the serialized form depends on nothing but
that string: tags with equal renderings serialize identically. -/
theorem serialize_is_display (t u : Tag) :
    Tag.serialize t = SerValue.str (Tag.display t) ∧
    (Tag.display t = Tag.display u → Tag.serialize t = Tag.serialize u) := by
  refine ⟨rfl, fun h => ?_⟩
  simp [Tag.serialize, h]

theorem serialize_is_display_witness :
    Tag.serialize ⟨none, "info", 'a'⟩ = Tag.serialize ⟨none, "info", 'b'⟩ :=
  (serialize_is_display ⟨none, "info", 'a'⟩ ⟨none, "info", 'b'⟩).2 rfl

/-- C9: `Tag::from(level)` has no prefix, for every level: `builder()`
starts at `None` and `set_level` and `finish` carry the prefix unchanged. -/
theorem from_level_no_pfx (l : Level) : (Tag.fromLevel l).pfx = none :=
  rfl

/-- C10: once `set_prefix` has been called, the prefix stays present
through every later builder call, and the finished `Tag` (when the
sequence reaches `finish`) has a present prefix. -/
theorem pfx_persistent (pre post : List Step) (p : String) :
    (statePfx (runSteps (pre ++ Step.setPfx p :: post) initState)).isSome = true ∧
    ∀ t : Tag, tryFinish (runSteps (pre ++ Step.setPfx p :: post) initState) = some t →
      t.pfx.isSome = true := by
  have hsplit : runSteps (pre ++ Step.setPfx p :: post) initState =
      runSteps post (applyStep (runSteps pre initState) (Step.setPfx p)) := by
    rw [runSteps_append]
    rfl
  have hsome : (statePfx (runSteps (pre ++ Step.setPfx p :: post) initState)).isSome
      = true := by
    rw [hsplit, statePfx_runSteps, statePfx_applyStep]
    exact foldl_pfxWrite_isSome post _ rfl
  refine ⟨hsome, ?_⟩
  intro t ht
  have hpfx := (tryFinish_fields _ t ht).2.2
  rw [← hpfx]
  exact hsome

theorem pfx_persistent_witness :
    (Tag.mk (some "admin") "info" 'ｉ').pfx.isSome = true :=
  (pfx_persistent [] [Step.setLevel Level.INFO] "admin").2
    (Tag.mk (some "admin") "info" 'ｉ') (by decide)

end TracingForest
